import Mathlib

/-!
Verification of the BGSU hackathon parallel web crawler
(`src/cpp/src/main.cpp`, a single ~560-line C++ translation unit).

Strings are embedded as `List Char` (the C++ code manipulates byte
strings; all inputs of interest here are ASCII, where C++ `std::tolower`
in the default locale and Lean's `Char.toLower` agree).  Pure helper
functions are translated clause by clause from the source; the
concurrent crawler (`ParallelCrawler::run` and its helpers) is embedded
as a small-step transition system in which each step is one of the
atomic actions of a worker thread (one critical section or one atomic
read-modify-write), and the invariants of the specification are proved
by induction over reachability.
-/

namespace Crawler

abbrev Str := List Char

/-- `to_lower` from main.cpp lines 99-102: lowercase every character
(ASCII, as `std::tolower` in the "C" locale). -/
def to_lower (s : Str) : Str := s.map Char.toLower

/-- Whitespace set of `trim`, main.cpp line 172: `" \t\n\r"`. -/
def is_space (c : Char) : Bool := c = ' ' || c = '\t' || c = '\n' || c = '\r'

/-- `trim` from main.cpp lines 171-178: drop leading and trailing
characters of `" \t\n\r"`; all-whitespace input becomes empty. -/
def trim (s : Str) : Str :=
  ((s.dropWhile is_space).reverse.dropWhile is_space).reverse

/-- `value.rfind(pat, 0) == 0` used throughout main.cpp: `pat` is a
prefix of `s`. -/
def starts_with (p s : Str) : Bool := p.isPrefixOf s

/-- `s.find(pat) != std::string::npos`: `pat` occurs as a contiguous
substring of `s`. -/
def contains_sub (s pat : Str) : Bool := s.tails.any (fun t => pat.isPrefixOf t)

/-- `UrlParts` from main.cpp lines 180-184. -/
structure UrlParts where
  scheme : Str
  host : Str
  path : Str
deriving DecidableEq, Repr

/-- Character class `[a-zA-Z]` (first character of the scheme). -/
def is_alpha (c : Char) : Bool :=
  ('a' ≤ c && c ≤ 'z') || ('A' ≤ c && c ≤ 'Z')

/-- Character class `[a-zA-Z0-9+.-]` of the scheme in the `parse_url`
regex (main.cpp line 187). -/
def is_scheme_char (c : Char) : Bool :=
  is_alpha c || ('0' ≤ c && c ≤ '9') || c = '+' || c = '.' || c = '-'

/-- Line terminators that ECMAScript `.` refuses to match; the path
group `(/.*)?` of the `parse_url` regex cannot contain them. -/
def is_line_term (c : Char) : Bool :=
  c = '\n' || c = '\r' || c = '\u2028' || c = '\u2029'

/-- `parse_url` from main.cpp lines 186-197: full match of
`^([a-zA-Z][a-zA-Z0-9+.-]*)://([^/]+)(/.*)?$`; scheme and host are
lowercased, path defaults to `/`.  The scheme character class excludes
`:` and `/`, so the scheme is the maximal scheme-class prefix and must
be followed by the literal `://`; the host is the maximal nonempty run
of non-`/` characters after that; the remainder (empty, or starting
with `/`) is the path, in which `.` forbids line terminators. -/
def parse_url (url : Str) : Option UrlParts :=
  match url.takeWhile is_scheme_char, url.dropWhile is_scheme_char with
  | c :: cs, ':' :: '/' :: '/' :: rest =>
    if is_alpha c then
      match rest.takeWhile (fun x => x ≠ '/'), rest.dropWhile (fun x => x ≠ '/') with
      | [], _ => none
      | h :: hs, path_rest =>
        if path_rest.any is_line_term then none
        else some ⟨to_lower (c :: cs), to_lower (h :: hs),
                   if path_rest = [] then ['/'] else path_rest⟩
    else none
  | _, _ => none

/-- `strip_fragment` from main.cpp lines 199-205: everything before the
first `#` (the whole string when there is none). -/
def strip_fragment (url : Str) : Str := url.takeWhile (fun c => c ≠ '#')

/-- Directory of a base path in `make_absolute` (main.cpp lines
233-234): everything up to and including the last `/`, or `/` when the
path has no slash. -/
def dir_of (p : Str) : Str :=
  let r := p.reverse.dropWhile (fun c => c ≠ '/')
  if r = [] then ['/'] else r.reverse

/-- `make_absolute` from main.cpp lines 207-238.  Note that the
`http://`/`https://` case and the `//` case apply `strip_fragment`, but
the absolute-path case and the relative case do not. -/
def make_absolute (base_url href : Str) : Str :=
  if trim href = [] then []
  else if starts_with "mailto:".data (trim href) ||
      starts_with "javascript:".data (trim href) then []
  else if starts_with "http://".data (trim href) ||
      starts_with "https://".data (trim href) then
    strip_fragment (trim href)
  else if starts_with "//".data (trim href) then
    match parse_url base_url with
    | none => []
    | some bp => bp.scheme ++ (':' :: strip_fragment (trim href))
  else
    match parse_url base_url with
    | none => []
    | some bp =>
      bp.scheme ++ "://".data ++ bp.host ++
        (if (trim href).head? = some '/' then trim href
         else dir_of bp.path ++ trim href)

/-- `extension_from_url` from main.cpp lines 240-255: strip fragment,
strip query, take the part after the last `/`, then from the last `.`
(inclusive), lowercased; empty when the filename has no dot. -/
def extension_from_url (url : Str) : Str :=
  let clean := (strip_fragment url).takeWhile (fun c => c ≠ '?')
  let filename := (clean.reverse.takeWhile (fun c => c ≠ '/')).reverse
  if filename.contains '.' then
    to_lower ('.' :: (filename.reverse.takeWhile (fun c => c ≠ '.')).reverse)
  else []

/-- `query_indicates_download` from main.cpp lines 257-269. -/
def query_indicates_download (url : Str) : Bool :=
  let lower := to_lower url
  contains_sub lower "format=pdf".data || contains_sub lower "format=doc".data ||
    contains_sub lower "download=1".data

/-! ## Fetcher (main.cpp lines 290-337)

The transport itself (libcurl) is external; `fetch_url` is embedded as a
function of the transport's outcome.  `CURLOPT_FAILONERROR` is never
set, so `curl_easy_perform` returns `CURLE_OK` for HTTP error statuses
and the body bytes delivered by `write_callback` include the bodies of
non-2xx responses; the final HTTP status is recorded in the outcome but
`fetch_url` never reads it.  The one-line diagnostic written to stderr
in the error branch is not modelled. -/

/-- Outcome of one libcurl transfer, as observed by `fetch_url`:
the `CURLcode` of `curl_easy_perform` (`curl_ok` iff `CURLE_OK`), the
bytes accumulated by `write_callback`, the trimmed value of the last
`Content-Type` header seen by `header_callback`, and the final HTTP
status (which the source never inspects). -/
structure TransportOutcome where
  curl_ok : Bool
  delivered_body : Str
  content_type : Str
  http_status : Nat
deriving DecidableEq, Repr

/-- `FetchResult` from main.cpp lines 290-293. -/
structure FetchResult where
  body : Str
  content_type : Str
deriving DecidableEq, Repr

/-- `fetch_url` from main.cpp lines 316-337: on `res != CURLE_OK` the
body is cleared (`result.body.clear()`); otherwise body and
content-type pass through unchanged.  No HTTP-status check exists. -/
def fetch_url (t : TransportOutcome) : FetchResult :=
  { body := if t.curl_ok then t.delivered_body else []
    content_type := t.content_type }

/-! ## Content-type handling in `process_url` (main.cpp lines 442-467) -/

/-- main.cpp line 442: `content_type = to_lower(result.content_type)`. -/
def lower_ct (ct : Str) : Str := to_lower ct

/-- main.cpp line 443: HTML iff the lowercased content-type contains
`text/html` or is empty. -/
def is_html_ct (ct : Str) : Bool :=
  contains_sub (lower_ct ct) "text/html".data || decide (lower_ct ct = [])

/-- main.cpp line 467: the field written to the metadata ledger,
`content_type.empty() ? "" : content_type` where `content_type` is the
lowercased header value of line 442. -/
def ledger_ct_field (ct : Str) : Str :=
  if lower_ct ct = [] then [] else lower_ct ct

/-! ## Crawler configuration (main.cpp lines 27-43)

Only the fields the crawl engine reads are embedded; `raw_output`,
`request_delay_seconds` and `timeout_seconds` influence no modelled
observable, and the thread count parametrises the transition system
directly (`load_config` guarantees it is at least 1). -/

structure Cfg where
  start_url : Str
  allowed_domains : List Str
  allowed_extensions : List Str
  max_pages : Int
deriving DecidableEq, Repr

/-- `ParallelCrawler::is_allowed_domain` from main.cpp lines 509-521:
parse the URL and compare its (lowercased) host against each configured
domain, lowercased. -/
def is_allowed_domain (cfg : Cfg) (url : Str) : Bool :=
  match parse_url url with
  | none => false
  | some p => cfg.allowed_domains.any (fun d => decide (p.host = to_lower d))

/-- `ParallelCrawler::should_enqueue` from main.cpp lines 490-507.
When the extension is empty, `query_indicates_download` is evaluated by
the `else if` but both outcomes fall through to `return true`. -/
def should_enqueue (cfg : Cfg) (url : Str) : Bool :=
  if strip_fragment url = [] then false
  else if ¬ is_allowed_domain cfg (strip_fragment url) then false
  else if extension_from_url (strip_fragment url) ≠ [] then
    decide (extension_from_url (strip_fragment url) ∈ cfg.allowed_extensions)
  else true

/-! ## The concurrent crawl engine as a transition system

Shared state (main.cpp lines 547-554): the FIFO `frontier_`, the sets
`queued_` and `visited_` (embedded as duplicate-free lists), the atomic
counters `pages_downloaded_` and `active_workers_`, the `stop` flag of
`run`, and the metadata ledger (one row per append of line 467,
recording the URL, the raw trimmed header value, and the field actually
written).

Each worker thread is a program counter (`Phase`) pointing between the
atomic actions of the loop body of `run` (lines 378-409) and
`process_url` (lines 432-488):

* `idle`      — at the top of the loop;
* `claimed u` — popped `u` from the frontier and incremented
  `active_workers_` under `queue_mutex_` (lines 384-396), before
  `mark_visited`;
* `checking u` — `mark_visited` succeeded (lines 416-423), before the
  `max_pages` check of line 433;
* `fetching u` — passed the `max_pages` check, fetch in flight
  (line 437);
* `offering u links current` — fetch succeeded; the body was persisted,
  the ledger row appended (lines 449-468) and `pages_downloaded_`
  incremented to `current` (line 470); the extracted links remaining to
  be offered (lines 471-478); after the last link the worker sleeps
  (no shared effect) and runs the post-check of line 484;
* `done`      — exited the loop.
-/

inductive Phase where
  | idle : Phase
  | claimed : Str → Phase
  | checking : Str → Phase
  | fetching : Str → Phase
  | offering : Str → List Str → Int → Phase
  | done : Phase
deriving DecidableEq, Repr

structure St where
  frontier : List Str
  queued : List Str
  visited : List Str
  workers : List Phase
  active : Int
  pages : Int
  stop : Bool
  ledger : List (Str × Str × Str)
deriving DecidableEq, Repr

/-- `ParallelCrawler::decrement_active` from main.cpp lines 425-430:
`fetch_sub(1)` followed by a best-effort clamp of negative values to
zero. -/
def dec_active (a : Int) : Int := if a - 1 < 0 then 0 else a - 1

/-- `ParallelCrawler::enqueue_url` from main.cpp lines 523-540: strip
the fragment; reject empty, out-of-domain, already-visited and
already-queued URLs; otherwise insert into `queued_` and push onto the
back of `frontier_` (the whole operation runs under `visited_mutex_`,
acquiring `queue_mutex_` for the push, hence is atomic with respect to
`mark_visited` and to the pop). -/
def enqueue_url (cfg : Cfg) (url : Str) (s : St) : St :=
  if strip_fragment url = [] then s
  else if ¬ is_allowed_domain cfg (strip_fragment url) then s
  else if strip_fragment url ∈ s.visited ∨ strip_fragment url ∈ s.queued then s
  else { s with queued := strip_fragment url :: s.queued,
                frontier := s.frontier ++ [strip_fragment url] }

/-- The state in which `run` spawns the workers (main.cpp lines
370-376): all collections empty, counters zero, then
`enqueue_url(config_.start_url)`. -/
def init_st (cfg : Cfg) (n : Nat) : St :=
  enqueue_url cfg cfg.start_url
    { frontier := [], queued := [], visited := [],
      workers := List.replicate n Phase.idle,
      active := 0, pages := 0, stop := false, ledger := [] }

/-- One atomic action of one worker.  The worker is identified by its
position in the `workers` list (`l ++ ph :: r`). -/
inductive Step (cfg : Cfg) : St → St → Prop
  /-- Lines 379-381: the worker reads `stop = true` at the top of the
  loop and exits. -/
  | exit_on_stop (s : St) (l r : List Phase) :
      s.workers = l ++ Phase.idle :: r → s.stop = true →
      Step cfg s { s with workers := l ++ Phase.done :: r }
  /-- Lines 384-388: under `queue_mutex_`, the frontier is nonempty;
  pop its head and increment `active_workers_`. -/
  | pop_front (s : St) (l r : List Phase) (u : Str) (f : List Str) :
      s.workers = l ++ Phase.idle :: r → s.frontier = u :: f →
      Step cfg s { s with workers := l ++ Phase.claimed u :: r,
                          frontier := f, active := s.active + 1 }
  /-- Lines 389-393: under `queue_mutex_`, the frontier is empty and
  `active_workers_` reads 0; set `stop` and exit. -/
  | stop_empty (s : St) (l r : List Phase) :
      s.workers = l ++ Phase.idle :: r → s.frontier = [] → s.active = 0 →
      Step cfg s { s with workers := l ++ Phase.done :: r, stop := true }
  /-- Lines 398, 416-423: `mark_visited` under `visited_mutex_`; the
  insertion into `visited_` succeeds, so `u` is erased from `queued_`. -/
  | mark_ok (s : St) (l r : List Phase) (u : Str) :
      s.workers = l ++ Phase.claimed u :: r → u ∉ s.visited →
      Step cfg s { s with workers := l ++ Phase.checking u :: r,
                          visited := u :: s.visited,
                          queued := s.queued.filter (fun v => decide (v ≠ u)) }
  /-- Lines 398-401: `mark_visited` finds `u` already visited; the
  worker decrements `active_workers_` and loops. -/
  | mark_dup (s : St) (l r : List Phase) (u : Str) :
      s.workers = l ++ Phase.claimed u :: r → u ∈ s.visited →
      Step cfg s { s with workers := l ++ Phase.idle :: r,
                          active := dec_active s.active }
  /-- Lines 433-435 with 403-408: `max_pages` is reached before the
  fetch; `process_url` returns false, the worker decrements
  `active_workers_`, sets `stop` and exits. -/
  | limit_stop (s : St) (l r : List Phase) (u : Str) :
      s.workers = l ++ Phase.checking u :: r →
      0 ≤ cfg.max_pages → cfg.max_pages ≤ s.pages →
      Step cfg s { s with workers := l ++ Phase.done :: r,
                          active := dec_active s.active, stop := true }
  /-- Line 433 negative: the limit is absent or not yet reached; the
  worker proceeds to the fetch. -/
  | limit_ok (s : St) (l r : List Phase) (u : Str) :
      s.workers = l ++ Phase.checking u :: r →
      (cfg.max_pages < 0 ∨ s.pages < cfg.max_pages) →
      Step cfg s { s with workers := l ++ Phase.fetching u :: r }
  /-- Lines 437-440 and 444-447: the fetch yields an empty body (or the
  URL fails `parse_url`); the worker abandons the URL, decrements
  `active_workers_`, and loops. -/
  | fetch_fail (s : St) (l r : List Phase) (u : Str) (t : TransportOutcome) :
      s.workers = l ++ Phase.fetching u :: r →
      (fetch_url t).body = [] ∨ parse_url u = none →
      Step cfg s { s with workers := l ++ Phase.idle :: r,
                          active := dec_active s.active }
  /-- Lines 437-478: the fetch yields a nonempty body and `u` parses;
  the body is written to disk, the ledger row is appended under
  `metadata_mutex_`, `pages_downloaded_` is incremented
  (`current = fetch_add(1) + 1`), and — iff the content-type classifies
  as HTML — `extract_links` supplies the links to be offered. -/
  | fetch_persist (s : St) (l r : List Phase) (u : Str) (t : TransportOutcome)
      (p : UrlParts) (links : List Str) :
      s.workers = l ++ Phase.fetching u :: r →
      (fetch_url t).body ≠ [] → parse_url u = some p →
      (links = [] ∨ is_html_ct (fetch_url t).content_type = true) →
      Step cfg s { s with
        workers := l ++ Phase.offering u links (s.pages + 1) :: r,
        ledger := s.ledger ++ [(u, (fetch_url t).content_type,
                                ledger_ct_field (fetch_url t).content_type)],
        pages := s.pages + 1 }
  /-- Lines 473-477: offer the next extracted link; the worker-side
  filter `should_enqueue` guards the call to `enqueue_url`. -/
  | offer_link (s : St) (l r : List Phase) (u x : Str) (xs : List Str) (c : Int) :
      s.workers = l ++ Phase.offering u (x :: xs) c :: r →
      Step cfg s { (if should_enqueue cfg x then enqueue_url cfg x s else s) with
                   workers := l ++ Phase.offering u xs c :: r }
  /-- Lines 484-486 with 403-408: all links offered; the post-increment
  count `current` reached `max_pages`, so `process_url` returns false:
  decrement `active_workers_`, set `stop`, exit. -/
  | post_stop (s : St) (l r : List Phase) (u : Str) (c : Int) :
      s.workers = l ++ Phase.offering u [] c :: r →
      0 ≤ cfg.max_pages → cfg.max_pages ≤ c →
      Step cfg s { s with workers := l ++ Phase.done :: r,
                          active := dec_active s.active, stop := true }
  /-- Lines 484-487 negative with 403-404: `process_url` returns true;
  decrement `active_workers_` and loop. -/
  | post_cont (s : St) (l r : List Phase) (u : Str) (c : Int) :
      s.workers = l ++ Phase.offering u [] c :: r →
      (cfg.max_pages < 0 ∨ c < cfg.max_pages) →
      Step cfg s { s with workers := l ++ Phase.idle :: r,
                          active := dec_active s.active }

/-- States reachable by interleaving worker actions from the spawn
state; `load_config` (lines 133, 146-149) guarantees at least one
worker thread. -/
inductive Reachable (cfg : Cfg) (n : Nat) : St → Prop
  | init : 1 ≤ n → Reachable cfg n (init_st cfg n)
  | step {s s' : St} : Reachable cfg n s → Step cfg s s' → Reachable cfg n s'

/-! ## Phase classification -/

/-- The worker holds `u` popped but not yet marked visited. -/
def is_claimed (u : Str) : Phase → Bool
  | .claimed v => decide (v = u)
  | _ => false

/-- The worker holds `u` and has not yet appended its ledger row. -/
def is_pre_append (u : Str) : Phase → Bool
  | .claimed v | .checking v | .fetching v => decide (v = u)
  | _ => false

/-- The worker holds `u` in any stage of processing. -/
def is_processing (u : Str) : Phase → Bool
  | .claimed v | .checking v | .fetching v => decide (v = u)
  | .offering v _ _ => decide (v = u)
  | _ => false

/-- The worker holds `u` and its `mark_visited` already succeeded. -/
def later_url (u : Str) : Phase → Bool
  | .checking v | .fetching v => decide (v = u)
  | .offering v _ _ => decide (v = u)
  | _ => false

/-- Passed the `max_pages` check of line 433 but not yet performed the
`fetch_add` of line 470. -/
def is_passed : Phase → Bool
  | .fetching _ => true
  | _ => false

/-- The worker has incremented `active_workers_` and not yet performed
the matching `decrement_active`. -/
def in_flight : Phase → Bool
  | .idle | .done => false
  | _ => true

/-! ## Concrete instances and the quiet-state predicate -/

def cfg_good : Cfg :=
  { start_url := "http://a.test/".data
    allowed_domains := ["a.test".data]
    allowed_extensions := [".html".data]
    max_pages := -1 }

def cfg_bad : Cfg :=
  { start_url := "notaurl".data
    allowed_domains := ["a.test".data]
    allowed_extensions := [".html".data]
    max_pages := -1 }

def cfg_bad0 : Cfg :=
  { start_url := "notaurl".data
    allowed_domains := ["a.test".data]
    allowed_extensions := [".html".data]
    max_pages := 0 }

def u0 : Str := "http://a.test/".data

/-- State after `run` seeds the frontier with the (accepted) start URL. -/
def s_seeded : St :=
  { frontier := [u0], queued := [u0], visited := [], workers := [Phase.idle],
    active := 0, pages := 0, stop := false, ledger := [] }

/-- State after the single worker pops `u0` under `queue_mutex_`: the URL
is out of the frontier but still in `queued` and not yet in `visited`. -/
def s_popped : St :=
  { frontier := [], queued := [u0], visited := [], workers := [Phase.claimed u0],
    active := 1, pages := 0, stop := false, ledger := [] }

/-- State after `mark_visited` succeeds. -/
def s_marked : St :=
  { frontier := [], queued := [], visited := [u0], workers := [Phase.checking u0],
    active := 1, pages := 0, stop := false, ledger := [] }

/-- State after the `max_pages` check passes (no limit configured). -/
def s_fetching : St :=
  { frontier := [], queued := [], visited := [u0], workers := [Phase.fetching u0],
    active := 1, pages := 0, stop := false, ledger := [] }

/-- A successful transfer whose trimmed Content-Type header carries
mixed casing. -/
def t_html : TransportOutcome :=
  { curl_ok := true, delivered_body := "x".data,
    content_type := "Text/HTML".data, http_status := 200 }

/-- State after the fetched body is persisted and its ledger row
appended. -/
def s_done_row : St :=
  { frontier := [], queued := [], visited := [u0],
    workers := [Phase.offering u0 [] 1], active := 1, pages := 1,
    stop := false,
    ledger := [(u0, "Text/HTML".data, ledger_ct_field "Text/HTML".data)] }

/-- Empty start state of the out-of-domain configuration. -/
def s_bad_init : St :=
  { frontier := [], queued := [], visited := [], workers := [Phase.idle],
    active := 0, pages := 0, stop := false, ledger := [] }

/-- Stopped state reached immediately when the seed was rejected. -/
def s_bad_stopped : St :=
  { frontier := [], queued := [], visited := [], workers := [Phase.done],
    active := 0, pages := 0, stop := true, ledger := [] }

/-- A 404 response whose body was delivered: libcurl reports `CURLE_OK`
because `CURLOPT_FAILONERROR` is never set. -/
def t404 : TransportOutcome :=
  { curl_ok := true, delivered_body := "not found".data,
    content_type := "text/html".data, http_status := 404 }

/-- A transfer failing at the transport layer. -/
def t_fail : TransportOutcome :=
  { curl_ok := false, delivered_body := "x".data, content_type := [],
    http_status := 500 }

/-- A state with nothing enqueued, nothing processed and every worker
merely idle or exited. -/
def Quiet (s : St) : Prop :=
  s.frontier = [] ∧ s.queued = [] ∧ s.visited = [] ∧ s.pages = 0 ∧
  s.ledger = [] ∧ s.active = 0 ∧
  ∀ ph ∈ s.workers, ph = Phase.idle ∨ ph = Phase.done

/-! ## The global invariant -/

/-- Invariant of every reachable crawler state, proved by induction on
`Reachable`.  Its fields formalise: the bookkeeping of the worker list;
the FrontierSet invariants (frontier duplicate-free and contained in
`queued`, `queued` disjoint from `visited`, every queued URL either in
the frontier or held by exactly the worker that popped it); exclusivity
of processing and of ledger rows; `active_workers_` always equal to the
number of in-flight workers; the `max_pages` over-run bound; quiescence
at stop when no page limit is set; and lowercasing of the ledger
content-type field. -/
structure Inv (cfg : Cfg) (n : Nat) (s : St) : Prop where
  wlen : s.workers.length = n
  npos : 1 ≤ n
  fr_nodup : s.frontier.Nodup
  q_nodup : s.queued.Nodup
  fr_sub_q : ∀ u ∈ s.frontier, u ∈ s.queued
  q_not_v : ∀ u ∈ s.queued, u ∉ s.visited
  claimed_qf : ∀ u ph, ph ∈ s.workers → is_claimed u ph = true →
      u ∈ s.queued ∧ u ∉ s.frontier
  later_v : ∀ u ph, ph ∈ s.workers → later_url u ph = true → u ∈ s.visited
  proc_once : ∀ u, s.workers.countP (is_processing u) ≤ 1
  ledger_v : ∀ rw ∈ s.ledger, rw.1 ∈ s.visited
  ledger_once : ∀ u,
      s.ledger.countP (fun rw => decide (rw.1 = u)) +
        s.workers.countP (is_pre_append u) ≤ 1
  q_loc : ∀ u ∈ s.queued, u ∈ s.frontier ∨ ∃ ph ∈ s.workers, is_claimed u ph = true
  act_eq : s.active = (s.workers.countP in_flight : Int)
  limit_inv : 0 ≤ cfg.max_pages → cfg.max_pages ≤ s.pages →
      s.pages + (s.workers.countP is_passed : Int) ≤ cfg.max_pages + n - 1
  quiesc : cfg.max_pages < 0 → s.stop = true →
      s.frontier = [] ∧ s.active = 0 ∧ s.queued = []
  ledger_low : ∀ rw ∈ s.ledger, rw.2.2 = ledger_ct_field rw.2.1

/-! ### Helper lemmas about phase predicates and worker lists -/

theorem is_claimed_processing {u : Str} {ph : Phase} (h : is_claimed u ph = true) :
    is_processing u ph = true := by
  cases ph <;> simpa [is_claimed, is_processing] using h

theorem is_claimed_pre_append {u : Str} {ph : Phase} (h : is_claimed u ph = true) :
    is_pre_append u ph = true := by
  cases ph <;> simpa [is_claimed, is_pre_append] using h

theorem later_processing {u : Str} {ph : Phase} (h : later_url u ph = true) :
    is_processing u ph = true := by
  cases ph <;> simpa [later_url, is_processing] using h

theorem processing_cases {u : Str} {ph : Phase} (h : is_processing u ph = true) :
    is_claimed u ph = true ∨ later_url u ph = true := by
  cases ph <;> simp_all [is_processing, is_claimed, later_url]

theorem pre_append_cases {u : Str} {ph : Phase} (h : is_pre_append u ph = true) :
    is_claimed u ph = true ∨ later_url u ph = true := by
  cases ph <;> simp_all [is_pre_append, is_claimed, later_url]

theorem claimed_in_flight {u : Str} {ph : Phase} (h : is_claimed u ph = true) :
    in_flight ph = true := by
  cases ph <;> simp_all [is_claimed, in_flight]

theorem countP_mid (p : Phase → Bool) (l r : List Phase) (ph : Phase) :
    (l ++ ph :: r).countP p =
      l.countP p + r.countP p + (if p ph then 1 else 0) := by
  cases hp : p ph <;> simp [List.countP_append, List.countP_cons, hp] <;> omega

theorem mem_mid (l r : List Phase) (ph : Phase) : ph ∈ l ++ ph :: r := by simp

theorem mem_mid_or {q ph' : Phase} {l r : List Phase} (ph : Phase)
    (h : q ∈ l ++ ph' :: r) : q ∈ l ++ ph :: r ∨ q = ph' := by
  rcases List.mem_append.1 h with h | h
  · exact Or.inl (List.mem_append.2 (Or.inl h))
  · rcases List.mem_cons.1 h with h | h
    · exact Or.inr h
    · exact Or.inl (List.mem_append.2 (Or.inr (List.mem_cons_of_mem _ h)))

theorem length_mid (l r : List Phase) (ph ph' : Phase) :
    (l ++ ph' :: r).length = (l ++ ph :: r).length := by simp

/-- A worker in flight forces `active_workers_ ≥ 1`. -/
theorem active_pos_of_in_flight {cfg : Cfg} {n : Nat} {s : St}
    (hI : Inv cfg n s) {ph : Phase} (hm : ph ∈ s.workers)
    (hf : in_flight ph = true) : 1 ≤ s.active := by
  have : 0 < s.workers.countP in_flight :=
    List.countP_pos_iff.2 ⟨ph, hm, hf⟩
  rw [hI.act_eq]
  exact_mod_cast this

/-- `decrement_active` never takes its clamp branch from a state with a
worker in flight. -/
theorem dec_active_eq {a : Int} (h : 1 ≤ a) : dec_active a = a - 1 := by
  unfold dec_active
  have : ¬ a - 1 < 0 := by omega
  simp [this]

theorem countP_retag_eq (p : Phase → Bool) (l r : List Phase) (ph ph' : Phase)
    (h : p ph' = p ph) :
    (l ++ ph' :: r).countP p = (l ++ ph :: r).countP p := by
  rw [countP_mid, countP_mid, h]

theorem countP_swap_le (p : Phase → Bool) (l r : List Phase) (ph ph' : Phase)
    (h : p ph' = true → p ph = true) :
    (l ++ ph' :: r).countP p ≤ (l ++ ph :: r).countP p := by
  rw [countP_mid, countP_mid]
  cases h1 : p ph' <;> cases h2 : p ph <;> simp_all

theorem countP_swap_add (p : Phase → Bool) (l r : List Phase) (ph ph' : Phase)
    (h1 : p ph' = true) (h2 : p ph = false) :
    (l ++ ph' :: r).countP p = (l ++ ph :: r).countP p + 1 := by
  rw [countP_mid, countP_mid, h1, h2]; simp

theorem countP_swap_succ (p : Phase → Bool) (l r : List Phase) (ph ph' : Phase)
    (h1 : p ph = true) (h2 : p ph' = false) :
    (l ++ ph' :: r).countP p + 1 = (l ++ ph :: r).countP p := by
  rw [countP_mid, countP_mid, h1, h2]; simp

theorem mem_mid_split {q ph' : Phase} {l r : List Phase} (h : q ∈ l ++ ph' :: r) :
    q ∈ l ∨ q ∈ r ∨ q = ph' := by
  rcases List.mem_append.1 h with h | h
  · exact Or.inl h
  · rcases List.mem_cons.1 h with h | h
    · exact Or.inr (Or.inr h)
    · exact Or.inr (Or.inl h)

theorem mem_mid_of_side {q : Phase} {l r : List Phase} (ph : Phase)
    (h : q ∈ l ∨ q ∈ r) : q ∈ l ++ ph :: r := by
  rcases h with h | h
  · exact List.mem_append.2 (Or.inl h)
  · exact List.mem_append.2 (Or.inr (List.mem_cons_of_mem _ h))

/-- Two distinct workers satisfying `p` (one of them the mid worker)
push the count to at least 2. -/
theorem two_in_mid {p : Phase → Bool} {l r : List Phase} {ph : Phase}
    (hmid : p ph = true) {q : Phase} (hq : q ∈ l ∨ q ∈ r) (hpq : p q = true) :
    2 ≤ (l ++ ph :: r).countP p := by
  rw [countP_mid, hmid]
  rcases hq with h | h
  · have : 0 < l.countP p := List.countP_pos_iff.2 ⟨q, h, hpq⟩
    simp; omega
  · have : 0 < r.countP p := List.countP_pos_iff.2 ⟨q, h, hpq⟩
    simp; omega

/-- No worker is processing the URL at the head of the frontier. -/
theorem proc_zero_of_front {cfg : Cfg} {n : Nat} {s : St} (hI : Inv cfg n s)
    {u : Str} {f : List Str} (hf : s.frontier = u :: f) :
    s.workers.countP (is_processing u) = 0 := by
  apply List.countP_eq_zero.2
  intro ph hm hp
  have hufr : u ∈ s.frontier := by rw [hf]; exact List.mem_cons_self u f
  rcases processing_cases hp with hc | hl
  · exact (hI.claimed_qf u ph hm hc).2 hufr
  · exact hI.q_not_v u (hI.fr_sub_q u hufr) (hI.later_v u ph hm hl)

/-- No worker is in a pre-append phase for the URL at the head of the
frontier. -/
theorem pre_append_zero_of_front {cfg : Cfg} {n : Nat} {s : St} (hI : Inv cfg n s)
    {u : Str} {f : List Str} (hf : s.frontier = u :: f) :
    s.workers.countP (is_pre_append u) = 0 := by
  apply List.countP_eq_zero.2
  intro ph hm hp
  have hufr : u ∈ s.frontier := by rw [hf]; exact List.mem_cons_self u f
  rcases pre_append_cases hp with hc | hl
  · exact (hI.claimed_qf u ph hm hc).2 hufr
  · exact hI.q_not_v u (hI.fr_sub_q u hufr) (hI.later_v u ph hm hl)

/-- The URL at the head of the frontier has no ledger row yet. -/
theorem ledger_zero_of_front {cfg : Cfg} {n : Nat} {s : St} (hI : Inv cfg n s)
    {u : Str} {f : List Str} (hf : s.frontier = u :: f) :
    s.ledger.countP (fun rw => decide (rw.1 = u)) = 0 := by
  apply List.countP_eq_zero.2
  intro rw hm hp
  have heq : rw.1 = u := of_decide_eq_true hp
  have hv := hI.ledger_v rw hm
  rw [heq] at hv
  have hufr : u ∈ s.frontier := by rw [hf]; exact List.mem_cons_self u f
  exact hI.q_not_v u (hI.fr_sub_q u hufr) hv

/-- With no page limit, a stopped state has no in-flight worker. -/
theorem quiet_no_worker {cfg : Cfg} {n : Nat} {s : St} (hI : Inv cfg n s)
    (hm : cfg.max_pages < 0) (hstop : s.stop = true) {ph : Phase}
    (hmem : ph ∈ s.workers) (hf : in_flight ph = true) : False := by
  have h1 := (hI.quiesc hm hstop).2.1
  have h2 := active_pos_of_in_flight hI hmem hf
  omega

/-- `active = 0` and an empty frontier force `queued = ∅`. -/
theorem queued_nil_of_quiet {cfg : Cfg} {n : Nat} {s : St}
    (hI : Inv cfg n s) (ha : s.active = 0) (hf : s.frontier = []) :
    s.queued = [] := by
  rw [List.eq_nil_iff_forall_not_mem]
  intro u hu
  rcases hI.q_loc u hu with h | ⟨ph, hm, hc⟩
  · rw [hf] at h; exact absurd h (List.not_mem_nil u)
  · have := active_pos_of_in_flight hI hm (claimed_in_flight hc)
    omega

/-- `enqueue_url` preserves the invariant (the caller must rule out an
already-quiescent stopped state, which holds wherever the source calls
it: at seeding `stop` is still false, and during link offering the
offering worker is in flight). -/
theorem inv_enqueue {cfg : Cfg} {n : Nat} {s : St} (hI : Inv cfg n s)
    (url : Str) (hq : cfg.max_pages < 0 → s.stop = true → False) :
    Inv cfg n (enqueue_url cfg url s) := by
  unfold enqueue_url
  by_cases h1 : strip_fragment url = []
  · rw [if_pos h1]; exact hI
  rw [if_neg h1]
  by_cases h2 : is_allowed_domain cfg (strip_fragment url) = true
  swap
  · rw [if_pos h2]; exact hI
  rw [if_neg (not_not_intro h2)]
  by_cases h3 : strip_fragment url ∈ s.visited ∨ strip_fragment url ∈ s.queued
  · rw [if_pos h3]; exact hI
  · rw [if_neg h3]
    push_neg at h3
    obtain ⟨hnv, hnq⟩ := h3
    set N := strip_fragment url with hN
    have hnf : N ∉ s.frontier := fun hmem => hnq (hI.fr_sub_q N hmem)
    refine ⟨hI.wlen, hI.npos, ?_, ?_, ?_, ?_, ?_, ?_, hI.proc_once, hI.ledger_v,
      hI.ledger_once, ?_, hI.act_eq, hI.limit_inv, ?_, hI.ledger_low⟩
    · simpa [List.nodup_append] using ⟨hI.fr_nodup, hnf⟩
    · exact List.Nodup.cons hnq hI.q_nodup
    · intro v hv
      rcases List.mem_append.1 hv with hv | hv
      · exact List.mem_cons_of_mem _ (hI.fr_sub_q v hv)
      · rw [List.mem_singleton.1 hv]; exact List.mem_cons_self _ _
    · intro v hv
      rcases List.mem_cons.1 hv with rfl | hv
      · exact hnv
      · exact hI.q_not_v v hv
    · intro v ph hm hc
      obtain ⟨hvq, hvf⟩ := hI.claimed_qf v ph hm hc
      refine ⟨List.mem_cons_of_mem _ hvq, ?_⟩
      intro hmem
      rcases List.mem_append.1 hmem with hmem | hmem
      · exact hvf hmem
      · rw [List.mem_singleton.1 hmem] at hvq; exact hnq hvq
    · exact hI.later_v
    · intro v hv
      rcases List.mem_cons.1 hv with rfl | hv
      · exact Or.inl (List.mem_append.2 (Or.inr (List.mem_singleton.2 rfl)))
      · rcases hI.q_loc v hv with hvf | hw
        · exact Or.inl (List.mem_append.2 (Or.inl hvf))
        · exact Or.inr hw
    · intro hm hstop
      exact absurd (hq hm hstop) (fun h => h)

/-- Consuming one link from the offering list preserves the invariant
(every phase predicate is insensitive to the remaining-links field). -/
theorem inv_offer_retag {cfg : Cfg} {n : Nat} {s : St} (hI : Inv cfg n s)
    {l r : List Phase} {u x : Str} {xs : List Str} {c : Int}
    (heq : s.workers = l ++ Phase.offering u (x :: xs) c :: r) :
    Inv cfg n { s with workers := l ++ Phase.offering u xs c :: r } := by
  refine ⟨?_, hI.npos, hI.fr_nodup, hI.q_nodup, hI.fr_sub_q, hI.q_not_v,
    ?_, ?_, ?_, hI.ledger_v, ?_, ?_, ?_, ?_, ?_, hI.ledger_low⟩
  · rw [length_mid l r (Phase.offering u (x :: xs) c), ← heq]; exact hI.wlen
  · intro v ph hm hc
    rcases mem_mid_or (Phase.offering u (x :: xs) c) hm with hm' | rfl
    · exact hI.claimed_qf v ph (heq ▸ hm') hc
    · simp [is_claimed] at hc
  · intro v ph hm hl
    rcases mem_mid_or (Phase.offering u (x :: xs) c) hm with hm' | rfl
    · exact hI.later_v v ph (heq ▸ hm') hl
    · refine hI.later_v v (Phase.offering u (x :: xs) c) (heq ▸ mem_mid l r _) ?_
      simpa [later_url] using hl
  · intro v
    rw [countP_retag_eq (is_processing v) l r (Phase.offering u (x :: xs) c)
      (Phase.offering u xs c) (by simp [is_processing]), ← heq]
    exact hI.proc_once v
  · intro v
    rw [countP_retag_eq (is_pre_append v) l r (Phase.offering u (x :: xs) c)
      (Phase.offering u xs c) (by simp [is_pre_append]), ← heq]
    exact hI.ledger_once v
  · intro v hv
    rcases hI.q_loc v hv with hvf | ⟨ph, hm, hc⟩
    · exact Or.inl hvf
    · rcases mem_mid_split (heq ▸ hm) with h | h | rfl
      · exact Or.inr ⟨ph, mem_mid_of_side _ (Or.inl h), hc⟩
      · exact Or.inr ⟨ph, mem_mid_of_side _ (Or.inr h), hc⟩
      · simp [is_claimed] at hc
  · rw [countP_retag_eq in_flight l r (Phase.offering u (x :: xs) c)
      (Phase.offering u xs c) (by simp [in_flight]), ← heq]
    exact hI.act_eq
  · intro h0 hle
    have h := hI.limit_inv h0 hle
    rw [countP_retag_eq is_passed l r (Phase.offering u (x :: xs) c)
      (Phase.offering u xs c) (by simp [is_passed]), ← heq]
    exact h
  · intro hm hstop
    exact hI.quiesc hm hstop

theorem enqueue_workers (cfg : Cfg) (url : Str) (s : St) :
    (enqueue_url cfg url s).workers = s.workers := by
  unfold enqueue_url; split_ifs <;> rfl

theorem countP_replicate_idle (p : Phase → Bool) (hp : p Phase.idle = false)
    (n : Nat) : (List.replicate n Phase.idle).countP p = 0 :=
  List.countP_eq_zero.2 (fun ph hm => by rw [List.eq_of_mem_replicate hm]; simp [hp])

/-- The invariant holds in the pristine state from which `run` seeds the
frontier. -/
theorem inv_base {cfg : Cfg} {n : Nat} (hn : 1 ≤ n) :
    Inv cfg n { frontier := [], queued := [], visited := [],
                workers := List.replicate n Phase.idle,
                active := 0, pages := 0, stop := false, ledger := [] } := by
  refine ⟨by simp, hn, by simp, by simp, by simp, by simp, ?_, ?_, ?_, by simp,
    ?_, by simp, ?_, ?_, ?_, by simp⟩
  · intro v ph hm hc
    rw [List.eq_of_mem_replicate hm] at hc
    simp [is_claimed] at hc
  · intro v ph hm hl
    rw [List.eq_of_mem_replicate hm] at hl
    simp [later_url] at hl
  · intro v
    rw [countP_replicate_idle (is_processing v) rfl]
    omega
  · intro v
    simp [countP_replicate_idle (is_pre_append v) rfl]
  · simp [countP_replicate_idle in_flight rfl]
  · intro h0 hle
    rw [countP_replicate_idle is_passed rfl]
    push_cast
    omega
  · intro _ hstop
    simp at hstop

/-- The invariant holds in the spawn state. -/
theorem inv_init {cfg : Cfg} {n : Nat} (hn : 1 ≤ n) : Inv cfg n (init_st cfg n) := by
  unfold init_st
  exact inv_enqueue (inv_base hn) _ (fun _ hstop => by simp at hstop)

/-- Every worker action preserves the invariant. -/
theorem inv_step {cfg : Cfg} {n : Nat} {s s' : St} (hI : Inv cfg n s)
    (hs : Step cfg s s') : Inv cfg n s' := by
  cases hs with
  | exit_on_stop l r heq hstop =>
    refine ⟨?_, hI.npos, hI.fr_nodup, hI.q_nodup, hI.fr_sub_q, hI.q_not_v,
      ?_, ?_, ?_, hI.ledger_v, ?_, ?_, ?_, ?_, ?_, hI.ledger_low⟩
    · rw [length_mid l r Phase.idle, ← heq]; exact hI.wlen
    · intro v ph hm hc
      rcases mem_mid_or Phase.idle hm with hm' | rfl
      · exact hI.claimed_qf v ph (by rw [heq]; exact hm') hc
      · simp [is_claimed] at hc
    · intro v ph hm hl
      rcases mem_mid_or Phase.idle hm with hm' | rfl
      · exact hI.later_v v ph (by rw [heq]; exact hm') hl
      · simp [later_url] at hl
    · intro v
      rw [countP_retag_eq (is_processing v) l r Phase.idle Phase.done rfl, ← heq]
      exact hI.proc_once v
    · intro v
      rw [countP_retag_eq (is_pre_append v) l r Phase.idle Phase.done rfl, ← heq]
      exact hI.ledger_once v
    · intro v hv
      rcases hI.q_loc v hv with hvf | ⟨ph, hm, hc⟩
      · exact Or.inl hvf
      · rcases mem_mid_split (show ph ∈ l ++ Phase.idle :: r by rw [← heq]; exact hm)
          with h | h | rfl
        · exact Or.inr ⟨ph, mem_mid_of_side _ (Or.inl h), hc⟩
        · exact Or.inr ⟨ph, mem_mid_of_side _ (Or.inr h), hc⟩
        · simp [is_claimed] at hc
    · rw [countP_retag_eq in_flight l r Phase.idle Phase.done rfl, ← heq]
      exact hI.act_eq
    · intro h0 hle
      rw [countP_retag_eq is_passed l r Phase.idle Phase.done rfl, ← heq]
      exact hI.limit_inv h0 hle
    · intro hm hstop'
      exact hI.quiesc hm hstop'
  | pop_front l r u f heq hfr =>
    have hufr : u ∈ s.frontier := by rw [hfr]; exact List.mem_cons_self u f
    have huq : u ∈ s.queued := hI.fr_sub_q u hufr
    have hfnodup : (u :: f).Nodup := by rw [← hfr]; exact hI.fr_nodup
    refine ⟨?_, hI.npos, hfnodup.of_cons, hI.q_nodup, ?_, hI.q_not_v,
      ?_, ?_, ?_, hI.ledger_v, ?_, ?_, ?_, ?_, ?_, hI.ledger_low⟩
    · rw [length_mid l r Phase.idle, ← heq]; exact hI.wlen
    · intro v hv
      exact hI.fr_sub_q v (by rw [hfr]; exact List.mem_cons_of_mem _ hv)
    · intro v ph hm hc
      rcases mem_mid_or Phase.idle hm with hm' | rfl
      · obtain ⟨h1, h2⟩ := hI.claimed_qf v ph (by rw [heq]; exact hm') hc
        exact ⟨h1, fun hvf => h2 (by rw [hfr]; exact List.mem_cons_of_mem _ hvf)⟩
      · have huv : u = v := of_decide_eq_true hc
        subst huv
        exact ⟨huq, (List.nodup_cons.1 hfnodup).1⟩
    · intro v ph hm hl
      rcases mem_mid_or Phase.idle hm with hm' | rfl
      · exact hI.later_v v ph (by rw [heq]; exact hm') hl
      · simp [later_url] at hl
    · intro v
      by_cases hv : u = v
      · subst hv
        have hz := proc_zero_of_front hI hfr
        rw [heq] at hz
        rw [countP_swap_add (is_processing u) l r Phase.idle (Phase.claimed u)
          (by simp [is_processing]) rfl, hz]
      · rw [countP_retag_eq (is_processing v) l r Phase.idle (Phase.claimed u)
          (by simp [is_processing, hv]), ← heq]
        exact hI.proc_once v
    · intro v
      by_cases hv : u = v
      · subst hv
        have hz1 := ledger_zero_of_front hI hfr
        have hz2 := pre_append_zero_of_front hI hfr
        rw [heq] at hz2
        rw [hz1, countP_swap_add (is_pre_append u) l r Phase.idle (Phase.claimed u)
          (by simp [is_pre_append]) rfl, hz2]
      · rw [countP_retag_eq (is_pre_append v) l r Phase.idle (Phase.claimed u)
          (by simp [is_pre_append, hv]), ← heq]
        exact hI.ledger_once v
    · intro v hv
      rcases hI.q_loc v hv with hvf | ⟨ph, hm, hc⟩
      · rw [hfr] at hvf
        rcases List.mem_cons.1 hvf with rfl | hvf'
        · exact Or.inr ⟨Phase.claimed v, mem_mid l r _, by simp [is_claimed]⟩
        · exact Or.inl hvf'
      · rcases mem_mid_split (show ph ∈ l ++ Phase.idle :: r by rw [← heq]; exact hm)
          with h | h | rfl
        · exact Or.inr ⟨ph, mem_mid_of_side _ (Or.inl h), hc⟩
        · exact Or.inr ⟨ph, mem_mid_of_side _ (Or.inr h), hc⟩
        · simp [is_claimed] at hc
    · dsimp only
      rw [countP_swap_add in_flight l r Phase.idle (Phase.claimed u) rfl rfl]
      have ha := hI.act_eq
      rw [heq] at ha
      push_cast
      omega
    · intro h0 hle
      rw [countP_retag_eq is_passed l r Phase.idle (Phase.claimed u) rfl, ← heq]
      exact hI.limit_inv h0 hle
    · intro hm hstop'
      have h := (hI.quiesc hm hstop').1
      rw [hfr] at h
      exact absurd h (by simp)
  | stop_empty l r heq hfr hact =>
    refine ⟨?_, hI.npos, hI.fr_nodup, hI.q_nodup, hI.fr_sub_q, hI.q_not_v,
      ?_, ?_, ?_, hI.ledger_v, ?_, ?_, ?_, ?_, ?_, hI.ledger_low⟩
    · rw [length_mid l r Phase.idle, ← heq]; exact hI.wlen
    · intro v ph hm hc
      rcases mem_mid_or Phase.idle hm with hm' | rfl
      · exact hI.claimed_qf v ph (by rw [heq]; exact hm') hc
      · simp [is_claimed] at hc
    · intro v ph hm hl
      rcases mem_mid_or Phase.idle hm with hm' | rfl
      · exact hI.later_v v ph (by rw [heq]; exact hm') hl
      · simp [later_url] at hl
    · intro v
      rw [countP_retag_eq (is_processing v) l r Phase.idle Phase.done rfl, ← heq]
      exact hI.proc_once v
    · intro v
      rw [countP_retag_eq (is_pre_append v) l r Phase.idle Phase.done rfl, ← heq]
      exact hI.ledger_once v
    · intro v hv
      rcases hI.q_loc v hv with hvf | ⟨ph, hm, hc⟩
      · exact Or.inl hvf
      · rcases mem_mid_split (show ph ∈ l ++ Phase.idle :: r by rw [← heq]; exact hm)
          with h | h | rfl
        · exact Or.inr ⟨ph, mem_mid_of_side _ (Or.inl h), hc⟩
        · exact Or.inr ⟨ph, mem_mid_of_side _ (Or.inr h), hc⟩
        · simp [is_claimed] at hc
    · rw [countP_retag_eq in_flight l r Phase.idle Phase.done rfl, ← heq]
      exact hI.act_eq
    · intro h0 hle
      rw [countP_retag_eq is_passed l r Phase.idle Phase.done rfl, ← heq]
      exact hI.limit_inv h0 hle
    · intro _ _
      have hqn := queued_nil_of_quiet hI hact hfr
      exact ⟨hfr, hact, hqn⟩
  | mark_ok l r u heq hnv =>
    have hmemw : Phase.claimed u ∈ s.workers := by rw [heq]; exact mem_mid l r _
    have hqf := hI.claimed_qf u (Phase.claimed u) hmemw (by simp [is_claimed])
    refine ⟨?_, hI.npos, hI.fr_nodup, hI.q_nodup.filter _, ?_, ?_,
      ?_, ?_, ?_, ?_, ?_, ?_, ?_, ?_, ?_, hI.ledger_low⟩
    · rw [length_mid l r (Phase.claimed u), ← heq]; exact hI.wlen
    · intro v hv
      refine List.mem_filter.2 ⟨hI.fr_sub_q v hv, ?_⟩
      simp only [decide_eq_true_eq]
      rintro rfl
      exact hqf.2 hv
    · intro v hv hmem
      obtain ⟨hvq, hvne'⟩ := List.mem_filter.1 hv
      have hvne : v ≠ u := by simpa using hvne'
      rcases List.mem_cons.1 hmem with rfl | hmem'
      · exact hvne rfl
      · exact hI.q_not_v v hvq hmem'
    · intro v ph hm hc
      have key : ph ∈ l ∨ ph ∈ r →
          v ∈ s.queued.filter (fun w => decide (w ≠ u)) ∧ v ∉ s.frontier := by
        intro hside
        obtain ⟨h1, h2⟩ := hI.claimed_qf v ph
          (by rw [heq]; exact mem_mid_of_side _ hside) hc
        have hvne : v ≠ u := by
          rintro rfl
          have h2c : 2 ≤ s.workers.countP (is_processing v) := by
            rw [heq]
            exact two_in_mid (by simp [is_processing]) hside (is_claimed_processing hc)
          have := hI.proc_once v
          omega
        exact ⟨List.mem_filter.2 ⟨h1, by simpa using hvne⟩, h2⟩
      rcases mem_mid_split hm with h | h | rfl
      · exact key (Or.inl h)
      · exact key (Or.inr h)
      · simp [is_claimed] at hc
    · intro v ph hm hl
      rcases mem_mid_split hm with h | h | rfl
      · exact List.mem_cons_of_mem _
          (hI.later_v v ph (by rw [heq]; exact mem_mid_of_side _ (Or.inl h)) hl)
      · exact List.mem_cons_of_mem _
          (hI.later_v v ph (by rw [heq]; exact mem_mid_of_side _ (Or.inr h)) hl)
      · have huv : u = v := of_decide_eq_true hl
        rw [← huv]
        exact List.mem_cons_self _ _
    · intro v
      rw [countP_retag_eq (is_processing v) l r (Phase.claimed u) (Phase.checking u)
        rfl, ← heq]
      exact hI.proc_once v
    · intro rw' hm
      exact List.mem_cons_of_mem _ (hI.ledger_v rw' hm)
    · intro v
      rw [countP_retag_eq (is_pre_append v) l r (Phase.claimed u) (Phase.checking u)
        rfl, ← heq]
      exact hI.ledger_once v
    · intro v hv
      obtain ⟨hvq, hvne'⟩ := List.mem_filter.1 hv
      have hvne : v ≠ u := by simpa using hvne'
      rcases hI.q_loc v hvq with hvf | ⟨ph, hm, hc⟩
      · exact Or.inl hvf
      · rcases mem_mid_split (show ph ∈ l ++ Phase.claimed u :: r
            by rw [← heq]; exact hm) with h | h | rfl
        · exact Or.inr ⟨ph, mem_mid_of_side _ (Or.inl h), hc⟩
        · exact Or.inr ⟨ph, mem_mid_of_side _ (Or.inr h), hc⟩
        · exact absurd (of_decide_eq_true hc).symm hvne
    · rw [countP_retag_eq in_flight l r (Phase.claimed u) (Phase.checking u) rfl,
        ← heq]
      exact hI.act_eq
    · intro h0 hle
      rw [countP_retag_eq is_passed l r (Phase.claimed u) (Phase.checking u) rfl,
        ← heq]
      exact hI.limit_inv h0 hle
    · intro hm hstop'
      exact (quiet_no_worker hI hm hstop' hmemw rfl).elim
  | mark_dup l r u heq huv =>
    have hmemw : Phase.claimed u ∈ s.workers := by rw [heq]; exact mem_mid l r _
    refine ⟨?_, hI.npos, hI.fr_nodup, hI.q_nodup, hI.fr_sub_q, hI.q_not_v,
      ?_, ?_, ?_, hI.ledger_v, ?_, ?_, ?_, ?_, ?_, hI.ledger_low⟩
    · rw [length_mid l r (Phase.claimed u), ← heq]; exact hI.wlen
    · intro v ph hm hc
      rcases mem_mid_or (Phase.claimed u) hm with hm' | rfl
      · exact hI.claimed_qf v ph (by rw [heq]; exact hm') hc
      · simp [is_claimed] at hc
    · intro v ph hm hl
      rcases mem_mid_or (Phase.claimed u) hm with hm' | rfl
      · exact hI.later_v v ph (by rw [heq]; exact hm') hl
      · simp [later_url] at hl
    · intro v
      exact le_trans
        (countP_swap_le (is_processing v) l r (Phase.claimed u) Phase.idle
          (by simp [is_processing]))
        (by rw [← heq]; exact hI.proc_once v)
    · intro v
      refine le_trans (Nat.add_le_add_left
        (countP_swap_le (is_pre_append v) l r (Phase.claimed u) Phase.idle
          (by simp [is_pre_append])) _) ?_
      rw [← heq]
      exact hI.ledger_once v
    · intro v hv
      rcases hI.q_loc v hv with hvf | ⟨ph, hm, hc⟩
      · exact Or.inl hvf
      · rcases mem_mid_split (show ph ∈ l ++ Phase.claimed u :: r
            by rw [← heq]; exact hm) with h | h | rfl
        · exact Or.inr ⟨ph, mem_mid_of_side _ (Or.inl h), hc⟩
        · exact Or.inr ⟨ph, mem_mid_of_side _ (Or.inr h), hc⟩
        · have h' : u = v := of_decide_eq_true hc
          subst h'
          exact absurd huv (hI.q_not_v u hv)
    · dsimp only
      have hpos := active_pos_of_in_flight hI hmemw rfl
      rw [dec_active_eq hpos]
      have hc := countP_swap_succ in_flight l r (Phase.claimed u) Phase.idle rfl rfl
      have ha := hI.act_eq
      rw [heq] at ha
      omega
    · intro h0 hle
      rw [countP_retag_eq is_passed l r (Phase.claimed u) Phase.idle rfl, ← heq]
      exact hI.limit_inv h0 hle
    · intro hm hstop'
      exact (quiet_no_worker hI hm hstop' hmemw rfl).elim
  | limit_stop l r u heq h0 hmp =>
    have hmemw : Phase.checking u ∈ s.workers := by rw [heq]; exact mem_mid l r _
    refine ⟨?_, hI.npos, hI.fr_nodup, hI.q_nodup, hI.fr_sub_q, hI.q_not_v,
      ?_, ?_, ?_, hI.ledger_v, ?_, ?_, ?_, ?_, ?_, hI.ledger_low⟩
    · rw [length_mid l r (Phase.checking u), ← heq]; exact hI.wlen
    · intro v ph hm hc
      rcases mem_mid_or (Phase.checking u) hm with hm' | rfl
      · exact hI.claimed_qf v ph (by rw [heq]; exact hm') hc
      · simp [is_claimed] at hc
    · intro v ph hm hl
      rcases mem_mid_or (Phase.checking u) hm with hm' | rfl
      · exact hI.later_v v ph (by rw [heq]; exact hm') hl
      · simp [later_url] at hl
    · intro v
      exact le_trans
        (countP_swap_le (is_processing v) l r (Phase.checking u) Phase.done
          (by simp [is_processing]))
        (by rw [← heq]; exact hI.proc_once v)
    · intro v
      refine le_trans (Nat.add_le_add_left
        (countP_swap_le (is_pre_append v) l r (Phase.checking u) Phase.done
          (by simp [is_pre_append])) _) ?_
      rw [← heq]
      exact hI.ledger_once v
    · intro v hv
      rcases hI.q_loc v hv with hvf | ⟨ph, hm, hc⟩
      · exact Or.inl hvf
      · rcases mem_mid_split (show ph ∈ l ++ Phase.checking u :: r
            by rw [← heq]; exact hm) with h | h | rfl
        · exact Or.inr ⟨ph, mem_mid_of_side _ (Or.inl h), hc⟩
        · exact Or.inr ⟨ph, mem_mid_of_side _ (Or.inr h), hc⟩
        · simp [is_claimed] at hc
    · dsimp only
      have hpos := active_pos_of_in_flight hI hmemw rfl
      rw [dec_active_eq hpos]
      have hc := countP_swap_succ in_flight l r (Phase.checking u) Phase.done rfl rfl
      have ha := hI.act_eq
      rw [heq] at ha
      omega
    · intro h0' hle
      rw [countP_retag_eq is_passed l r (Phase.checking u) Phase.done rfl, ← heq]
      exact hI.limit_inv h0' hle
    · intro hm _
      exact absurd h0 (not_le.2 hm)
  | limit_ok l r u heq hg =>
    have hmemw : Phase.checking u ∈ s.workers := by rw [heq]; exact mem_mid l r _
    refine ⟨?_, hI.npos, hI.fr_nodup, hI.q_nodup, hI.fr_sub_q, hI.q_not_v,
      ?_, ?_, ?_, hI.ledger_v, ?_, ?_, ?_, ?_, ?_, hI.ledger_low⟩
    · rw [length_mid l r (Phase.checking u), ← heq]; exact hI.wlen
    · intro v ph hm hc
      rcases mem_mid_or (Phase.checking u) hm with hm' | rfl
      · exact hI.claimed_qf v ph (by rw [heq]; exact hm') hc
      · simp [is_claimed] at hc
    · intro v ph hm hl
      rcases mem_mid_or (Phase.checking u) hm with hm' | rfl
      · exact hI.later_v v ph (by rw [heq]; exact hm') hl
      · refine hI.later_v v (Phase.checking u) hmemw ?_
        simpa [later_url] using hl
    · intro v
      rw [countP_retag_eq (is_processing v) l r (Phase.checking u) (Phase.fetching u)
        rfl, ← heq]
      exact hI.proc_once v
    · intro v
      rw [countP_retag_eq (is_pre_append v) l r (Phase.checking u) (Phase.fetching u)
        rfl, ← heq]
      exact hI.ledger_once v
    · intro v hv
      rcases hI.q_loc v hv with hvf | ⟨ph, hm, hc⟩
      · exact Or.inl hvf
      · rcases mem_mid_split (show ph ∈ l ++ Phase.checking u :: r
            by rw [← heq]; exact hm) with h | h | rfl
        · exact Or.inr ⟨ph, mem_mid_of_side _ (Or.inl h), hc⟩
        · exact Or.inr ⟨ph, mem_mid_of_side _ (Or.inr h), hc⟩
        · simp [is_claimed] at hc
    · rw [countP_retag_eq in_flight l r (Phase.checking u) (Phase.fetching u) rfl,
        ← heq]
      exact hI.act_eq
    · intro h0 hle
      dsimp only at hle
      rcases hg with hneg | hlt
      · omega
      · omega
    · intro hm hstop'
      exact (quiet_no_worker hI hm hstop' hmemw rfl).elim
  | fetch_fail l r u t heq hb =>
    have hmemw : Phase.fetching u ∈ s.workers := by rw [heq]; exact mem_mid l r _
    refine ⟨?_, hI.npos, hI.fr_nodup, hI.q_nodup, hI.fr_sub_q, hI.q_not_v,
      ?_, ?_, ?_, hI.ledger_v, ?_, ?_, ?_, ?_, ?_, hI.ledger_low⟩
    · rw [length_mid l r (Phase.fetching u), ← heq]; exact hI.wlen
    · intro v ph hm hc
      rcases mem_mid_or (Phase.fetching u) hm with hm' | rfl
      · exact hI.claimed_qf v ph (by rw [heq]; exact hm') hc
      · simp [is_claimed] at hc
    · intro v ph hm hl
      rcases mem_mid_or (Phase.fetching u) hm with hm' | rfl
      · exact hI.later_v v ph (by rw [heq]; exact hm') hl
      · simp [later_url] at hl
    · intro v
      exact le_trans
        (countP_swap_le (is_processing v) l r (Phase.fetching u) Phase.idle
          (by simp [is_processing]))
        (by rw [← heq]; exact hI.proc_once v)
    · intro v
      refine le_trans (Nat.add_le_add_left
        (countP_swap_le (is_pre_append v) l r (Phase.fetching u) Phase.idle
          (by simp [is_pre_append])) _) ?_
      rw [← heq]
      exact hI.ledger_once v
    · intro v hv
      rcases hI.q_loc v hv with hvf | ⟨ph, hm, hc⟩
      · exact Or.inl hvf
      · rcases mem_mid_split (show ph ∈ l ++ Phase.fetching u :: r
            by rw [← heq]; exact hm) with h | h | rfl
        · exact Or.inr ⟨ph, mem_mid_of_side _ (Or.inl h), hc⟩
        · exact Or.inr ⟨ph, mem_mid_of_side _ (Or.inr h), hc⟩
        · simp [is_claimed] at hc
    · dsimp only
      have hpos := active_pos_of_in_flight hI hmemw rfl
      rw [dec_active_eq hpos]
      have hc := countP_swap_succ in_flight l r (Phase.fetching u) Phase.idle rfl rfl
      have ha := hI.act_eq
      rw [heq] at ha
      omega
    · intro h0 hle
      dsimp only at hle ⊢
      have h := hI.limit_inv h0 hle
      rw [heq] at h
      have hc := countP_swap_succ is_passed l r (Phase.fetching u) Phase.idle rfl rfl
      omega
    · intro hm hstop'
      exact (quiet_no_worker hI hm hstop' hmemw rfl).elim
  | fetch_persist l r u t p links heq hb hp hl =>
    have hmemw : Phase.fetching u ∈ s.workers := by rw [heq]; exact mem_mid l r _
    have huv : u ∈ s.visited :=
      hI.later_v u (Phase.fetching u) hmemw (by simp [later_url])
    refine ⟨?_, hI.npos, hI.fr_nodup, hI.q_nodup, hI.fr_sub_q, hI.q_not_v,
      ?_, ?_, ?_, ?_, ?_, ?_, ?_, ?_, ?_, ?_⟩
    · rw [length_mid l r (Phase.fetching u), ← heq]; exact hI.wlen
    · intro v ph' hm hc
      rcases mem_mid_or (Phase.fetching u) hm with hm' | rfl
      · exact hI.claimed_qf v ph' (by rw [heq]; exact hm') hc
      · simp [is_claimed] at hc
    · intro v ph' hm hlv
      rcases mem_mid_or (Phase.fetching u) hm with hm' | rfl
      · exact hI.later_v v ph' (by rw [heq]; exact hm') hlv
      · have h' : u = v := of_decide_eq_true hlv
        rw [← h']; exact huv
    · intro v
      rw [countP_retag_eq (is_processing v) l r (Phase.fetching u)
        (Phase.offering u links (s.pages + 1)) rfl, ← heq]
      exact hI.proc_once v
    · intro rw' hm
      rcases List.mem_append.1 hm with hm' | hm'
      · exact hI.ledger_v rw' hm'
      · rw [List.mem_singleton.1 hm']
        exact huv
    · intro v
      dsimp only
      have h := hI.ledger_once v
      rw [heq] at h
      rw [List.countP_append]
      by_cases hv : u = v
      · subst hv
        have hc := countP_swap_succ (is_pre_append u) l r (Phase.fetching u)
          (Phase.offering u links (s.pages + 1)) (by simp [is_pre_append]) rfl
        have hone : List.countP (fun rw => decide (rw.1 = u))
            [(u, (fetch_url t).content_type,
              ledger_ct_field (fetch_url t).content_type)] = 1 := by simp
        rw [hone]
        omega
      · have hzero : List.countP (fun rw => decide (rw.1 = v))
            [(u, (fetch_url t).content_type,
              ledger_ct_field (fetch_url t).content_type)] = 0 := by simp [hv]
        rw [hzero, countP_retag_eq (is_pre_append v) l r (Phase.fetching u)
          (Phase.offering u links (s.pages + 1)) (by simp [is_pre_append, hv])]
        omega
    · intro v hv
      rcases hI.q_loc v hv with hvf | ⟨ph', hm, hc⟩
      · exact Or.inl hvf
      · rcases mem_mid_split (show ph' ∈ l ++ Phase.fetching u :: r
            by rw [← heq]; exact hm) with h | h | rfl
        · exact Or.inr ⟨ph', mem_mid_of_side _ (Or.inl h), hc⟩
        · exact Or.inr ⟨ph', mem_mid_of_side _ (Or.inr h), hc⟩
        · simp [is_claimed] at hc
    · rw [countP_retag_eq in_flight l r (Phase.fetching u)
        (Phase.offering u links (s.pages + 1)) rfl, ← heq]
      exact hI.act_eq
    · intro h0 hle
      dsimp only at hle ⊢
      have hc := countP_swap_succ is_passed l r (Phase.fetching u)
        (Phase.offering u links (s.pages + 1)) rfl rfl
      by_cases hcase : cfg.max_pages ≤ s.pages
      · have h := hI.limit_inv h0 hcase
        rw [heq] at h
        omega
      · push_neg at hcase
        have hlen : (l ++ Phase.fetching u :: r).length = n := by
          rw [← heq]; exact hI.wlen
        have hle2 : (l ++ Phase.offering u links (s.pages + 1) :: r).countP is_passed
            ≤ l.length + r.length := by
          rw [countP_mid]
          have h1 := List.countP_le_length (l := l) (p := is_passed)
          have h2 := List.countP_le_length (l := r) (p := is_passed)
          simp [is_passed]
          omega
        have hlen2 : l.length + (r.length + 1) = n := by simpa using hlen
        omega
    · intro hm hstop'
      exact (quiet_no_worker hI hm hstop' hmemw rfl).elim
    · intro rw' hm
      rcases List.mem_append.1 hm with hm' | hm'
      · exact hI.ledger_low rw' hm'
      · rw [List.mem_singleton.1 hm']
  | offer_link l r u x xs c heq =>
    have hmemw : Phase.offering u (x :: xs) c ∈ s.workers := by
      rw [heq]; exact mem_mid l r _
    have hq : cfg.max_pages < 0 → s.stop = true → False := fun hm hstop =>
      quiet_no_worker hI hm hstop hmemw rfl
    by_cases hse : should_enqueue cfg x = true
    · rw [if_pos hse]
      exact inv_offer_retag (inv_enqueue hI x hq)
        (by rw [enqueue_workers]; exact heq)
    · rw [if_neg hse]
      exact inv_offer_retag hI heq
  | post_stop l r u c heq h0 hmp =>
    have hmemw : Phase.offering u [] c ∈ s.workers := by rw [heq]; exact mem_mid l r _
    refine ⟨?_, hI.npos, hI.fr_nodup, hI.q_nodup, hI.fr_sub_q, hI.q_not_v,
      ?_, ?_, ?_, hI.ledger_v, ?_, ?_, ?_, ?_, ?_, hI.ledger_low⟩
    · rw [length_mid l r (Phase.offering u [] c), ← heq]; exact hI.wlen
    · intro v ph hm hc
      rcases mem_mid_or (Phase.offering u [] c) hm with hm' | rfl
      · exact hI.claimed_qf v ph (by rw [heq]; exact hm') hc
      · simp [is_claimed] at hc
    · intro v ph hm hlv
      rcases mem_mid_or (Phase.offering u [] c) hm with hm' | rfl
      · exact hI.later_v v ph (by rw [heq]; exact hm') hlv
      · simp [later_url] at hlv
    · intro v
      exact le_trans
        (countP_swap_le (is_processing v) l r (Phase.offering u [] c) Phase.done
          (by simp [is_processing]))
        (by rw [← heq]; exact hI.proc_once v)
    · intro v
      refine le_trans (Nat.add_le_add_left
        (countP_swap_le (is_pre_append v) l r (Phase.offering u [] c) Phase.done
          (by simp [is_pre_append])) _) ?_
      rw [← heq]
      exact hI.ledger_once v
    · intro v hv
      rcases hI.q_loc v hv with hvf | ⟨ph, hm, hc⟩
      · exact Or.inl hvf
      · rcases mem_mid_split (show ph ∈ l ++ Phase.offering u [] c :: r
            by rw [← heq]; exact hm) with h | h | rfl
        · exact Or.inr ⟨ph, mem_mid_of_side _ (Or.inl h), hc⟩
        · exact Or.inr ⟨ph, mem_mid_of_side _ (Or.inr h), hc⟩
        · simp [is_claimed] at hc
    · dsimp only
      have hpos := active_pos_of_in_flight hI hmemw rfl
      rw [dec_active_eq hpos]
      have hc := countP_swap_succ in_flight l r (Phase.offering u [] c) Phase.done
        rfl rfl
      have ha := hI.act_eq
      rw [heq] at ha
      omega
    · intro h0' hle
      rw [countP_retag_eq is_passed l r (Phase.offering u [] c) Phase.done rfl,
        ← heq]
      exact hI.limit_inv h0' hle
    · intro hm _
      exact absurd h0 (not_le.2 hm)
  | post_cont l r u c heq hg =>
    have hmemw : Phase.offering u [] c ∈ s.workers := by rw [heq]; exact mem_mid l r _
    refine ⟨?_, hI.npos, hI.fr_nodup, hI.q_nodup, hI.fr_sub_q, hI.q_not_v,
      ?_, ?_, ?_, hI.ledger_v, ?_, ?_, ?_, ?_, ?_, hI.ledger_low⟩
    · rw [length_mid l r (Phase.offering u [] c), ← heq]; exact hI.wlen
    · intro v ph hm hc
      rcases mem_mid_or (Phase.offering u [] c) hm with hm' | rfl
      · exact hI.claimed_qf v ph (by rw [heq]; exact hm') hc
      · simp [is_claimed] at hc
    · intro v ph hm hlv
      rcases mem_mid_or (Phase.offering u [] c) hm with hm' | rfl
      · exact hI.later_v v ph (by rw [heq]; exact hm') hlv
      · simp [later_url] at hlv
    · intro v
      exact le_trans
        (countP_swap_le (is_processing v) l r (Phase.offering u [] c) Phase.idle
          (by simp [is_processing]))
        (by rw [← heq]; exact hI.proc_once v)
    · intro v
      refine le_trans (Nat.add_le_add_left
        (countP_swap_le (is_pre_append v) l r (Phase.offering u [] c) Phase.idle
          (by simp [is_pre_append])) _) ?_
      rw [← heq]
      exact hI.ledger_once v
    · intro v hv
      rcases hI.q_loc v hv with hvf | ⟨ph, hm, hc⟩
      · exact Or.inl hvf
      · rcases mem_mid_split (show ph ∈ l ++ Phase.offering u [] c :: r
            by rw [← heq]; exact hm) with h | h | rfl
        · exact Or.inr ⟨ph, mem_mid_of_side _ (Or.inl h), hc⟩
        · exact Or.inr ⟨ph, mem_mid_of_side _ (Or.inr h), hc⟩
        · simp [is_claimed] at hc
    · dsimp only
      have hpos := active_pos_of_in_flight hI hmemw rfl
      rw [dec_active_eq hpos]
      have hc := countP_swap_succ in_flight l r (Phase.offering u [] c) Phase.idle
        rfl rfl
      have ha := hI.act_eq
      rw [heq] at ha
      omega
    · intro h0 hle
      rw [countP_retag_eq is_passed l r (Phase.offering u [] c) Phase.idle rfl,
        ← heq]
      exact hI.limit_inv h0 hle
    · intro hm hstop'
      exact (quiet_no_worker hI hm hstop' hmemw rfl).elim

/-- Every reachable state satisfies the invariant. -/
theorem reachable_inv {cfg : Cfg} {n : Nat} {s : St} (h : Reachable cfg n s) :
    Inv cfg n s := by
  induction h with
  | init hn => exact inv_init hn
  | step _ hs ih => exact inv_step ih hs

/-! ## Concrete executions

Short single-worker executions of the concrete configurations, used as
witnesses. -/

theorem init_good_eq : init_st cfg_good 1 = s_seeded := by decide

theorem reach_seeded : Reachable cfg_good 1 s_seeded :=
  init_good_eq ▸ Reachable.init (by decide)

theorem step_pop : Step cfg_good s_seeded s_popped :=
  Step.pop_front s_seeded [] [] u0 [] rfl rfl

theorem reach_popped : Reachable cfg_good 1 s_popped :=
  Reachable.step reach_seeded step_pop

theorem step_mark : Step cfg_good s_popped s_marked :=
  Step.mark_ok s_popped [] [] u0 rfl (by decide)

theorem step_limit : Step cfg_good s_marked s_fetching :=
  Step.limit_ok s_marked [] [] u0 rfl (Or.inl (by decide))

theorem step_row : Step cfg_good s_fetching s_done_row :=
  Step.fetch_persist s_fetching [] [] u0 t_html
    ⟨"http".data, "a.test".data, "/".data⟩ [] rfl (by decide) (by decide)
    (Or.inl rfl)

theorem reach_row : Reachable cfg_good 1 s_done_row :=
  Reachable.step (Reachable.step (Reachable.step reach_popped step_mark)
    step_limit) step_row

theorem init_bad_eq : init_st cfg_bad 1 = s_bad_init := by decide

theorem reach_bad_init : Reachable cfg_bad 1 s_bad_init :=
  init_bad_eq ▸ Reachable.init (by decide)

theorem step_bad_stop : Step cfg_bad s_bad_init s_bad_stopped :=
  Step.stop_empty s_bad_init [] [] rfl rfl rfl

theorem reach_bad_stopped : Reachable cfg_bad 1 s_bad_stopped :=
  Reachable.step reach_bad_init step_bad_stop

/-! ## Crawls whose seed is rejected stay empty -/

/-- `enqueue_url` is the identity when the stripped URL fails
`parse_url` or has a host outside `allowed_domains` (both are exactly
`is_allowed_domain = false`, since `is_allowed_domain` returns false on
parse failure). -/
theorem enqueue_rejected {cfg : Cfg}
    (H : is_allowed_domain cfg (strip_fragment cfg.start_url) = false)
    (t : St) : enqueue_url cfg cfg.start_url t = t := by
  unfold enqueue_url
  by_cases h1 : strip_fragment cfg.start_url = []
  · rw [if_pos h1]
  · rw [if_neg h1, if_pos (by simp [H])]

theorem quiet_step {cfg : Cfg} {s s' : St} (hq : Quiet s) (hs : Step cfg s s') :
    Quiet s' := by
  obtain ⟨hf, hqd, hv, hp, hl, ha, hw⟩ := hq
  cases hs with
  | exit_on_stop l r heq hstop =>
    refine ⟨hf, hqd, hv, hp, hl, ha, ?_⟩
    intro ph hm
    rcases mem_mid_or Phase.idle hm with hm' | rfl
    · exact hw ph (by rw [heq]; exact hm')
    · exact Or.inr rfl
  | pop_front l r u f heq hfr =>
    rw [hf] at hfr
    exact absurd hfr (by simp)
  | stop_empty l r heq hfr hact =>
    refine ⟨hf, hqd, hv, hp, hl, ha, ?_⟩
    intro ph hm
    rcases mem_mid_or Phase.idle hm with hm' | rfl
    · exact hw ph (by rw [heq]; exact hm')
    · exact Or.inr rfl
  | mark_ok l r u heq hnv =>
    have := hw (Phase.claimed u) (by rw [heq]; exact mem_mid l r _)
    simp at this
  | mark_dup l r u heq huv =>
    have := hw (Phase.claimed u) (by rw [heq]; exact mem_mid l r _)
    simp at this
  | limit_stop l r u heq h0 hmp =>
    have := hw (Phase.checking u) (by rw [heq]; exact mem_mid l r _)
    simp at this
  | limit_ok l r u heq hg =>
    have := hw (Phase.checking u) (by rw [heq]; exact mem_mid l r _)
    simp at this
  | fetch_fail l r u t heq hb =>
    have := hw (Phase.fetching u) (by rw [heq]; exact mem_mid l r _)
    simp at this
  | fetch_persist l r u t p links heq hb hpr hli =>
    have := hw (Phase.fetching u) (by rw [heq]; exact mem_mid l r _)
    simp at this
  | offer_link l r u x xs c heq =>
    have := hw (Phase.offering u (x :: xs) c) (by rw [heq]; exact mem_mid l r _)
    simp at this
  | post_stop l r u c heq h0 hmp =>
    have := hw (Phase.offering u [] c) (by rw [heq]; exact mem_mid l r _)
    simp at this
  | post_cont l r u c heq hg =>
    have := hw (Phase.offering u [] c) (by rw [heq]; exact mem_mid l r _)
    simp at this

theorem quiet_reachable {cfg : Cfg} {n : Nat}
    (H : is_allowed_domain cfg (strip_fragment cfg.start_url) = false)
    {s : St} (h : Reachable cfg n s) : Quiet s := by
  induction h with
  | init hn =>
    unfold init_st
    rw [enqueue_rejected H]
    exact ⟨rfl, rfl, rfl, rfl, rfl, rfl,
      fun ph hm => Or.inl (List.eq_of_mem_replicate hm)⟩
  | step _ hs ih => exact quiet_step ih hs

theorem enqueue_ledger (cfg : Cfg) (url : Str) (s : St) :
    (enqueue_url cfg url s).ledger = s.ledger := by
  unfold enqueue_url; split_ifs <;> rfl

/-- A proper prefix forces the first character: if `s` starts with a
character other than `c`, then `c :: p` is not a prefix of `s`. -/
theorem not_starts_of_head {c d : Char} {p s : Str} (hs : s.head? = some d)
    (hne : c ≠ d) : starts_with (c :: p) s = false := by
  cases s with
  | nil => simp at hs
  | cons b bs =>
    simp at hs
    subst hs
    simp [starts_with, List.isPrefixOf, hne]

/-! ## The claims -/

/-- C1: in every reachable crawler state, each URL is held by at most
one worker (claimed and processed by at most one), and no URL occurs in
more than one metadata ledger row — `enqueue_url` rejects URLs already
in `visited_` or `queued_`, and `mark_visited` admits a popped URL only
when its insertion into `visited_` succeeds, so a URL enters the
frontier, is claimed, and is recorded at most once. -/
theorem C1_at_most_once {cfg : Cfg} {n : Nat} {s : St}
    (h : Reachable cfg n s) :
    (∀ u : Str, s.workers.countP (is_processing u) ≤ 1) ∧
    (∀ u : Str, s.ledger.countP (fun rw => decide (rw.1 = u)) ≤ 1) := by
  have hI := reachable_inv h
  refine ⟨hI.proc_once, fun u => ?_⟩
  have := hI.ledger_once u
  omega

theorem C1_at_most_once_witness :
    Reachable cfg_good 1 s_done_row ∧
    ((∀ u : Str, s_done_row.workers.countP (is_processing u) ≤ 1) ∧
     (∀ u : Str, s_done_row.ledger.countP (fun rw => decide (rw.1 = u)) ≤ 1)) :=
  ⟨reach_row, C1_at_most_once reach_row⟩

/-- C2: with no page limit (`max_pages < 0`), whenever the stop flag is
set the crawler is quiescent — the frontier is empty, `active_workers`
is zero, and no offered-but-unclaimed URL remains (`queued` is empty):
the only step that can set `stop` observes, under the frontier lock, an
empty frontier and `active_workers == 0`, and every worker offers its
extracted links before decrementing `active_workers`. -/
theorem C2_stop_quiescent {cfg : Cfg} {n : Nat} {s : St}
    (h : Reachable cfg n s) (hmp : cfg.max_pages < 0) (hstop : s.stop = true) :
    s.frontier = [] ∧ s.active = 0 ∧ s.queued = [] :=
  (reachable_inv h).quiesc hmp hstop

theorem C2_stop_quiescent_witness :
    (Reachable cfg_bad 1 s_bad_stopped ∧ cfg_bad.max_pages < 0 ∧
      s_bad_stopped.stop = true) ∧
    (s_bad_stopped.frontier = [] ∧ s_bad_stopped.active = 0 ∧
      s_bad_stopped.queued = []) :=
  ⟨⟨reach_bad_stopped, by decide, rfl⟩,
    C2_stop_quiescent reach_bad_stopped (by decide) rfl⟩

/-- C3: with `max_pages ≥ 0` and `n` worker threads, the page counter
never exceeds `max_pages + n - 1`: each worker re-reads
`pages_downloaded` against `max_pages` before fetching, so at most
`n - 1` workers already past that check can push the count beyond the
limit. -/
theorem C3_page_bound {cfg : Cfg} {n : Nat} {s : St} (h : Reachable cfg n s)
    (hmp : 0 ≤ cfg.max_pages) :
    s.pages ≤ cfg.max_pages + (n : Int) - 1 := by
  have hI := reachable_inv h
  by_cases hc : cfg.max_pages ≤ s.pages
  · have h1 := hI.limit_inv hmp hc
    have h2 : (0 : Int) ≤ (s.workers.countP is_passed : Int) := by positivity
    omega
  · have := hI.npos
    push_neg at hc
    omega

theorem C3_page_bound_witness :
    (Reachable cfg_bad0 1 (init_st cfg_bad0 1) ∧ (0 : Int) ≤ cfg_bad0.max_pages) ∧
    (init_st cfg_bad0 1).pages ≤ cfg_bad0.max_pages + ((1 : Nat) : Int) - 1 :=
  ⟨⟨Reachable.init (by decide), by decide⟩,
    C3_page_bound (Reachable.init (by decide)) (by decide)⟩

/-- C4 counterexample: the pop from the frontier (under `queue_mutex_`,
main.cpp lines 384-396) and the insertion into `visited_`
(`mark_visited` under `visited_mutex_`, lines 416-423) are two separate
critical sections, so a state in which a URL has been popped from the
frontier but is still in `queued` and not yet in `visited` is reachable
(and observable by a concurrent `enqueue_url`), contradicting the claim
that between any two FrontierSet operations `queued` equals the set of
frontier elements and that pop and visited-insertion form one critical
section. -/
theorem C4_counterexample :
    Reachable cfg_good 1 s_popped ∧ u0 ∈ s_popped.queued ∧
    u0 ∉ s_popped.frontier ∧ u0 ∉ s_popped.visited :=
  ⟨reach_popped, by decide, by decide, by decide⟩

/-- C4 amended: every frontier element is in `queued`, and `queued` may
additionally hold URLs that have been popped but not yet marked visited
— every queued URL is either still in the frontier or held by a worker
in the popped-but-unmarked (`claimed`) phase; `queued` stays disjoint
from `visited`, which is what preserves deduplication. -/
theorem C4_amended {cfg : Cfg} {n : Nat} {s : St} (h : Reachable cfg n s) :
    (∀ u ∈ s.frontier, u ∈ s.queued) ∧
    (∀ u ∈ s.queued, u ∉ s.visited) ∧
    (∀ u ∈ s.queued, u ∈ s.frontier ∨ ∃ ph ∈ s.workers, is_claimed u ph = true) := by
  have hI := reachable_inv h
  exact ⟨hI.fr_sub_q, hI.q_not_v, hI.q_loc⟩

theorem C4_amended_witness :
    Reachable cfg_good 1 s_popped ∧
    ((∀ u ∈ s_popped.frontier, u ∈ s_popped.queued) ∧
     (∀ u ∈ s_popped.queued, u ∉ s_popped.visited) ∧
     (∀ u ∈ s_popped.queued, u ∈ s_popped.frontier ∨
        ∃ ph ∈ s_popped.workers, is_claimed u ph = true)) :=
  ⟨reach_popped, C4_amended reach_popped⟩

/-- C5 counterexample: the ledger row written by `process_url` carries
`to_lower(result.content_type)` (main.cpp line 442 feeding line 467),
not the original casing of the trimmed header: the reachable state
`s_done_row` holds a row whose written content-type field differs from
the trimmed header value `"Text/HTML"` of the response. -/
theorem C5_counterexample :
    Reachable cfg_good 1 s_done_row ∧
    s_done_row.ledger = [(u0, "Text/HTML".data, "text/html".data)] ∧
    "text/html".data ≠ "Text/HTML".data :=
  ⟨reach_row, by decide, by decide⟩

/-- C5 amended: the content_type field written to every metadata ledger
row is the lowercased form of the trimmed Content-Type header — the same
lowercased string used for the HTML-versus-file classification
(`is_html_ct`); the original casing is not preserved. -/
theorem C5_lowered_ledger {cfg : Cfg} {n : Nat} {s : St}
    (h : Reachable cfg n s) :
    ∀ rw ∈ s.ledger, rw.2.2 = to_lower rw.2.1 := by
  have hI := reachable_inv h
  intro rw hm
  rw [hI.ledger_low rw hm]
  unfold ledger_ct_field lower_ct
  split_ifs with h1
  · exact h1.symm
  · rfl

theorem C5_lowered_ledger_witness :
    Reachable cfg_good 1 s_done_row ∧
    ∀ rw ∈ s_done_row.ledger, rw.2.2 = to_lower rw.2.1 :=
  ⟨reach_row, C5_lowered_ledger reach_row⟩

/-- C6 counterexample: for a base URL with valid parse and an href
beginning with `/` (not `//`), `make_absolute` returns
`scheme + "://" + host + href` with the fragment retained — it does not
apply `strip_fragment` in this branch (main.cpp lines 229-237), so the
result can contain `#`, contradicting rule 5 and the claim that resolve
never returns a URL with a fragment. -/
theorem C6_counterexample :
    make_absolute "http://h/a".data "/x#f".data = "http://h/x#f".data ∧
    make_absolute "http://h/a".data "/x#f".data ≠
      "http".data ++ "://".data ++ "h".data ++ strip_fragment "/x#f".data ∧
    '#' ∈ make_absolute "http://h/a".data "/x#f".data :=
  ⟨by decide, by decide, by decide⟩

/-- C6 amended: for every base URL with valid parse, an href whose trim
begins with `/` (but not `//`) resolves to
`base.scheme + "://" + base.host + trim(href)` with the fragment kept,
and a relative href (rule 6) resolves to the base path directory
concatenated with the trimmed href, again without fragment stripping;
stripping happens only later, in `should_enqueue` / `enqueue_url`. -/
theorem C6_no_fragment_strip (b h : Str) (q : UrlParts)
    (hp : parse_url b = some q) :
    ((trim h).head? = some '/' → starts_with "//".data (trim h) = false →
      make_absolute b h = q.scheme ++ "://".data ++ q.host ++ trim h) ∧
    (trim h ≠ [] →
      starts_with "mailto:".data (trim h) = false →
      starts_with "javascript:".data (trim h) = false →
      starts_with "http://".data (trim h) = false →
      starts_with "https://".data (trim h) = false →
      starts_with "//".data (trim h) = false →
      (trim h).head? ≠ some '/' →
      make_absolute b h =
        q.scheme ++ "://".data ++ q.host ++ (dir_of q.path ++ trim h)) := by
  constructor
  · intro h1 h2
    have hne : trim h ≠ [] := by
      intro hx
      rw [hx] at h1
      simp at h1
    have hm : starts_with "mailto:".data (trim h) = false :=
      not_starts_of_head (c := 'm') (p := "ailto:".data) h1 (by decide)
    have hj : starts_with "javascript:".data (trim h) = false :=
      not_starts_of_head (c := 'j') (p := "avascript:".data) h1 (by decide)
    have hh1 : starts_with "http://".data (trim h) = false :=
      not_starts_of_head (c := 'h') (p := "ttp://".data) h1 (by decide)
    have hh2 : starts_with "https://".data (trim h) = false :=
      not_starts_of_head (c := 'h') (p := "ttps://".data) h1 (by decide)
    unfold make_absolute
    rw [if_neg hne, if_neg (by simp [hm, hj]), if_neg (by simp [hh1, hh2]),
      if_neg (by simp [h2])]
    simp only [hp]
    rw [if_pos h1]
  · intro hne hm hj hh1 hh2 h2 h7
    unfold make_absolute
    rw [if_neg hne, if_neg (by simp [hm, hj]), if_neg (by simp [hh1, hh2]),
      if_neg (by simp [h2])]
    simp only [hp]
    rw [if_neg h7]

theorem C6_no_fragment_strip_witness :
    parse_url "http://h/a".data = some ⟨"http".data, "h".data, "/a".data⟩ ∧
    make_absolute "http://h/a".data "/x#f".data =
      "http".data ++ "://".data ++ "h".data ++ trim "/x#f".data :=
  ⟨by decide,
    (C6_no_fragment_strip "http://h/a".data "/x#f".data
      ⟨"http".data, "h".data, "/a".data⟩ (by decide)).1 (by decide) (by decide)⟩

/-- C7 counterexample: `fetch_url` never inspects the HTTP status —
`CURLOPT_FAILONERROR` is not set, so a non-2xx response delivered with a
nonempty body comes back with `CURLE_OK` and a nonempty body, which the
worker then treats as success, contradicting the claim that a non-2xx
final status yields failure with an empty body. -/
theorem C7_counterexample :
    ¬(200 ≤ t404.http_status ∧ t404.http_status ≤ 299) ∧
    (fetch_url t404).body = "not found".data ∧
    "not found".data ≠ ([] : Str) :=
  ⟨by decide, by decide, by decide⟩

/-- C7 amended: on transport error (curl code ≠ `CURLE_OK`) `fetch_url`
returns an empty body (and logs one diagnostic line, not modelled); the
HTTP status is never inspected.  A fetch whose body is empty is treated
as failure by the worker: no step appends a ledger row or bumps the page
counter except the persist step, whose fetched body is nonempty. -/
theorem C7_failure_handling :
    (∀ t : TransportOutcome, t.curl_ok = false → (fetch_url t).body = []) ∧
    (∀ (cfg : Cfg) (s s' : St), Step cfg s s' →
      s'.ledger = s.ledger ∨
      ∃ u ct, s'.ledger = s.ledger ++ [(u, ct, ledger_ct_field ct)] ∧
        (∃ t : TransportOutcome, (fetch_url t).body ≠ [] ∧
          ct = (fetch_url t).content_type) ∧
        s'.pages = s.pages + 1) := by
  constructor
  · intro t ht
    simp [fetch_url, ht]
  · intro cfg s s' hs
    cases hs with
    | exit_on_stop l r heq hstop => exact Or.inl rfl
    | pop_front l r u f heq hfr => exact Or.inl rfl
    | stop_empty l r heq hfr hact => exact Or.inl rfl
    | mark_ok l r u heq hnv => exact Or.inl rfl
    | mark_dup l r u heq huv => exact Or.inl rfl
    | limit_stop l r u heq h0 hmp => exact Or.inl rfl
    | limit_ok l r u heq hg => exact Or.inl rfl
    | fetch_fail l r u t heq hb => exact Or.inl rfl
    | fetch_persist l r u t p links heq hb hpr hli =>
      exact Or.inr ⟨u, (fetch_url t).content_type, rfl, ⟨t, hb, rfl⟩, rfl⟩
    | offer_link l r u x xs c heq =>
      left
      by_cases hse : should_enqueue cfg x = true
      · rw [if_pos hse]
        exact enqueue_ledger cfg x s
      · rw [if_neg hse]
    | post_stop l r u c heq h0 hmp => exact Or.inl rfl
    | post_cont l r u c heq hg => exact Or.inl rfl

theorem C7_failure_handling_witness :
    (t_fail.curl_ok = false ∧ (fetch_url t_fail).body = []) ∧
    (Step cfg_good s_seeded s_popped ∧
      (s_popped.ledger = s_seeded.ledger ∨
        ∃ u ct, s_popped.ledger = s_seeded.ledger ++ [(u, ct, ledger_ct_field ct)] ∧
          (∃ t : TransportOutcome, (fetch_url t).body ≠ [] ∧
            ct = (fetch_url t).content_type) ∧
          s_popped.pages = s_seeded.pages + 1)) :=
  ⟨⟨rfl, C7_failure_handling.1 t_fail rfl⟩,
    ⟨step_pop, C7_failure_handling.2 cfg_good s_seeded s_popped step_pop⟩⟩

/-- C8: for a URL that passes the fragment-strip (nonempty) and
allowed-domain checks, `should_enqueue` rejects exactly the URLs whose
nonempty extension is outside `allowed_extensions`, accepts those with
an allowed extension, and accepts every extension-less URL
unconditionally — the `else if (!query_indicates_download(...))` branch
of main.cpp lines 503-505 has an empty body, so both outcomes of
`query_indicates_download` fall through to `return true`. -/
theorem C8_extension_gate (cfg : Cfg) (url : Str)
    (h1 : strip_fragment url ≠ [])
    (h2 : is_allowed_domain cfg (strip_fragment url) = true) :
    (extension_from_url (strip_fragment url) ≠ [] ∧
        extension_from_url (strip_fragment url) ∉ cfg.allowed_extensions →
      should_enqueue cfg url = false) ∧
    (extension_from_url (strip_fragment url) ≠ [] ∧
        extension_from_url (strip_fragment url) ∈ cfg.allowed_extensions →
      should_enqueue cfg url = true) ∧
    (extension_from_url (strip_fragment url) = [] →
      should_enqueue cfg url = true) := by
  unfold should_enqueue
  rw [if_neg h1, if_neg (not_not_intro h2)]
  refine ⟨fun ⟨he, hmem⟩ => ?_, fun ⟨he, hmem⟩ => ?_, fun he => ?_⟩
  · rw [if_pos he]
    simp [hmem]
  · rw [if_pos he]
    simp [hmem]
  · rw [if_neg (not_not_intro he)]

theorem C8_extension_gate_witness :
    (strip_fragment "http://a.test/page".data ≠ [] ∧
      is_allowed_domain cfg_good (strip_fragment "http://a.test/page".data) = true ∧
      extension_from_url (strip_fragment "http://a.test/page".data) = []) ∧
    should_enqueue cfg_good "http://a.test/page".data = true :=
  ⟨⟨by decide, by decide, by decide⟩,
    (C8_extension_gate cfg_good "http://a.test/page".data (by decide)
      (by decide)).2.2 (by decide)⟩

/-- C9: in every reachable state `active_workers` equals the number of
in-flight workers, hence is never negative, and whenever any worker is
about to run `decrement_active` (it is in flight) the decrement lands on
a value of at least 1, so the underflow-clamp branch of
`decrement_active` (main.cpp lines 427-429) is unreachable. -/
theorem C9_no_underflow {cfg : Cfg} {n : Nat} {s : St}
    (h : Reachable cfg n s) :
    s.active = (s.workers.countP in_flight : Int) ∧ 0 ≤ s.active ∧
    (∀ ph ∈ s.workers, in_flight ph = true →
      dec_active s.active = s.active - 1) := by
  have hI := reachable_inv h
  refine ⟨hI.act_eq, by rw [hI.act_eq]; positivity, ?_⟩
  intro ph hm hf
  exact dec_active_eq (active_pos_of_in_flight hI hm hf)

theorem C9_no_underflow_witness :
    Reachable cfg_good 1 s_popped ∧
    (s_popped.active = (s_popped.workers.countP in_flight : Int) ∧
      0 ≤ s_popped.active ∧
      (∀ ph ∈ s_popped.workers, in_flight ph = true →
        dec_active s_popped.active = s_popped.active - 1)) :=
  ⟨reach_popped, C9_no_underflow reach_popped⟩

/-- C10: `enqueue_url` applies the domain filter to every URL including
the configured seed — when the stripped start URL fails `parse_url` or
its host is outside `allowed_domains` (both cases are
`is_allowed_domain = false`), the seed is rejected, every reachable
state has zero pages downloaded, an empty frontier and an empty ledger
body, and the stopped state is reached. -/
theorem C10_seed_filtered (cfg : Cfg) (n : Nat)
    (H : is_allowed_domain cfg (strip_fragment cfg.start_url) = false) :
    (∀ t : St, enqueue_url cfg cfg.start_url t = t) ∧
    (∀ s : St, Reachable cfg n s →
      s.pages = 0 ∧ s.frontier = [] ∧ s.ledger = []) ∧
    (1 ≤ n → ∃ s : St, Reachable cfg n s ∧ s.stop = true ∧
      s.pages = 0 ∧ s.frontier = []) := by
  refine ⟨enqueue_rejected H, ?_, ?_⟩
  · intro s hs
    obtain ⟨hf, _, _, hp, hl, _, _⟩ := quiet_reachable H hs
    exact ⟨hp, hf, hl⟩
  · intro hn
    obtain ⟨k, rfl⟩ : ∃ k, n = k + 1 := ⟨n - 1, by omega⟩
    have hinit : init_st cfg (k + 1) =
        { frontier := [], queued := [], visited := [],
          workers := List.replicate (k + 1) Phase.idle,
          active := 0, pages := 0, stop := false, ledger := [] } := by
      unfold init_st
      rw [enqueue_rejected H]
    have h0 : Reachable cfg (k + 1)
        { frontier := [], queued := [], visited := [],
          workers := List.replicate (k + 1) Phase.idle,
          active := 0, pages := 0, stop := false, ledger := [] } := by
      rw [← hinit]
      exact Reachable.init (by omega)
    refine ⟨{ frontier := [], queued := [], visited := [],
              workers := Phase.done :: List.replicate k Phase.idle,
              active := 0, pages := 0, stop := true, ledger := [] },
      ?_, rfl, rfl, rfl⟩
    refine Reachable.step h0 ?_
    exact Step.stop_empty _ [] (List.replicate k Phase.idle)
      (by simp [List.replicate_succ]) rfl rfl

theorem C10_seed_filtered_witness :
    is_allowed_domain cfg_bad (strip_fragment cfg_bad.start_url) = false ∧
    ((init_st cfg_bad 1).pages = 0 ∧ (init_st cfg_bad 1).frontier = [] ∧
      (init_st cfg_bad 1).ledger = []) :=
  ⟨by decide,
    (C10_seed_filtered cfg_bad 1 (by decide)).2.1 _ (Reachable.init (by decide))⟩

end Crawler
